import Mathlib

/-!
Verification of the schema import resolver of `xsd_by_example.py`
(repository tamtamresearch/xsd-browser).

The Python source is shallowly embedded: attribute values are `String`,
XML namespace maps (`lxml` nsmaps) are association lists from optional
prefix to namespace URI, the global namespace registry `ns_to_prefix`
is an association list from namespace URI to prefix (Python dicts keep
insertion order and never hold a key twice, which the embedding
preserves because entries are only appended when the key is absent),
and the filesystem seen by `handle_imports` is an association list from
canonical (resolved absolute) path, modelled as `Nat`, to parsed schema
file.  Python's unbounded recursion is modelled with explicit fuel; the
theorems show the fuel used is always sufficient.
-/

namespace XsdByExample

/-- The reserved namespace of the schema definition language,
constant `XSD` in the source. -/
def XSD : String := "http://www.w3.org/2001/XMLSchema"

/-- `":" in val` on a Python string. -/
def containsColon (s : String) : Bool := s.data.contains ':'

/-- `val.split(":", 1)` on a value known to contain a colon:
returns the part before the first colon and the part after it,
`none` when there is no colon. -/
def splitColonOnce (s : String) : Option (String × String) :=
  match s.data.dropWhile (fun c => c ≠ ':') with
  | [] => none
  | _ :: rest => some (⟨s.data.takeWhile (fun c => c ≠ ':')⟩, ⟨rest⟩)

/-! ### Name/reference prefixing (steps 1-4 of `handle_imports`,
and `_prefix_root_elements`) -/

/-- Step 1/2 of `handle_imports`: `if ":" not in v: v = add + v`
(applied to definition names and `ref` attributes). -/
def addUnlessQualified (add v : String) : String :=
  if containsColon v then v else add ++ v

/-- Step 3/4 of `handle_imports`:
`if ":" not in v and not v.startswith("xsd:"): v = add + v`
(applied to `type` and `base` attributes). -/
def addUnlessQualifiedOrBuiltin (add v : String) : String :=
  if ¬ containsColon v ∧ ¬ v.startsWith "xsd:" then add ++ v else v

/-- `_prefix_root_elements`, name attribute:
`if name and ":" not in name: name = add + name`. -/
def rootName (add v : String) : String :=
  if ¬ v.isEmpty ∧ ¬ containsColon v then add ++ v else v

/-- `_prefix_root_elements`, `ref`/`substitutionGroup` attributes:
`if val and ":" not in val: val = add + val`. -/
def rootRef (add v : String) : String :=
  if ¬ v.isEmpty ∧ ¬ containsColon v then add ++ v else v

/-- `_prefix_root_elements`, `type`/`base` attributes:
`if val and ":" not in val and not val.startswith("xsd:")`. -/
def rootTypeBase (add v : String) : String :=
  if ¬ v.isEmpty ∧ ¬ containsColon v ∧ ¬ v.startsWith "xsd:" then add ++ v else v

/-! ### Cross-namespace reference remapping (step 5 of `handle_imports`) -/

/-- Result of rewriting one reference attribute value: the new value and
the diagnostics logged while doing so. -/
structure RemapResult where
  value : String
  warnings : List String
deriving Repr, DecidableEq

/-- Step 5 of `handle_imports` for a single attribute value `val`:
resolve the value's own prefix through the imported file's nsmap
(`import_nsmap`), then re-emit it with the canonical registry prefix.
`nsmap` entries pair an optional declared prefix with a namespace URI;
`reg` is `ns_to_prefix`; `rootNs` is `root_target_ns` (`None` possible);
`rootPfx` is `root_prefix` (empty when the root declared none). -/
def remapRefAttr (nsmap : List (Option String × String))
    (reg : List (String × String)) (rootNs : Option String)
    (rootPfx : String) (val : String) : RemapResult :=
  match splitColonOnce val with
  | none => ⟨val, []⟩
  | some (localPfx, localName) =>
    match nsmap.lookup (some localPfx) with
    | none => ⟨val, []⟩
    | some refNs =>
      if refNs = XSD then ⟨"xsd:" ++ localName, []⟩
      else if refNs.isEmpty then ⟨val, []⟩
      else if rootNs = some refNs then
        if rootPfx.isEmpty then ⟨localName, []⟩
        else ⟨rootPfx ++ ":" ++ localName, []⟩
      else
        match reg.lookup refNs with
        | some registryPfx =>
          if registryPfx.isEmpty then
            ⟨val, ["WARNING: No registry prefix for " ++ refNs]⟩
          else ⟨registryPfx ++ ":" ++ localName, []⟩
        | none => ⟨val, ["WARNING: No registry prefix for " ++ refNs]⟩

/-! ### XSD prefix normalization (`_normalize_xsd_prefixes`) -/

/-- An XML element of the merged document, reduced to the attributes the
resolver rewrites. -/
structure XmlEl where
  attrs : List (String × String)
deriving Repr, DecidableEq

/-- The rewrite `_normalize_xsd_prefixes` applies to one attribute value. -/
def normalizeXsdVal (xsdPrefixes : List String) (v : String) : String :=
  match splitColonOnce v with
  | none => v
  | some (pfx, localName) =>
    if pfx ∈ xsdPrefixes ∧ pfx ≠ "xsd" then "xsd:" ++ localName else v

/-- `_normalize_xsd_prefixes(schema_el, xsd_prefixes)`: for the `type`
and `base` attributes of every element, rewrite a value carrying a
non-canonical XSD-namespace prefix to the canonical `xsd:` form.
No other attribute is touched. -/
def normalizeXsdPrefixes (xsdPrefixes : List String) (els : List XmlEl) :
    List XmlEl :=
  els.map fun el =>
    ⟨el.attrs.map fun kv =>
      if kv.1 = "type" ∨ kv.1 = "base" then
        (kv.1, normalizeXsdVal xsdPrefixes kv.2)
      else kv⟩

/-- `_prefix_root_elements` restricted to one element's attributes
(`name` handled for the five definition kinds; here the element is
assumed to be of such a kind, which only widens the claim). -/
def prefixRootElAttrs (add : String) (el : XmlEl) : XmlEl :=
  ⟨el.attrs.map fun kv =>
    if kv.1 = "name" then (kv.1, rootName add kv.2)
    else if kv.1 = "ref" ∨ kv.1 = "substitutionGroup" then
      (kv.1, rootRef add kv.2)
    else if kv.1 = "type" ∨ kv.1 = "base" then
      (kv.1, rootTypeBase add kv.2)
    else kv⟩

/-! ### Prefix derivation (`_derive_prefix_from_ns`) -/

/-- `ns_uri.rstrip("/").rsplit("/", 1)[-1]` at the character-list level:
the last path segment of the URI after trailing slashes are stripped. -/
def lastSegment (l : List Char) : List Char :=
  ((l.reverse.dropWhile (fun c => c = '/')).takeWhile (fun c => c ≠ '/')).reverse

/-- `last_part.split("_", 1)[0].lower()`: the lowercased first
`_`-separated component of the last path segment.  (Python's `lower()`
and `Char.toLower` agree on the ASCII range that namespace URIs use.) -/
def baseCandidate (ns : String) : String :=
  ⟨((lastSegment ns.data).takeWhile (fun c => c ≠ '_')).map Char.toLower⟩

/-- The `while candidate in used_prefixes` loop of
`_derive_prefix_from_ns`.  Python's loop is unbounded; the fuel below is
shown (theorem for claim C7) to be large enough that the loop always
exits by finding an unused candidate, so the fuel-exhausted branch is
semantically unreachable. -/
def deriveLoop (base : String) (used : List String) :
    Nat → String → Nat → String
  | 0, candidate, _ => candidate
  | fuel + 1, candidate, counter =>
    if candidate ∈ used then
      deriveLoop base used fuel (base ++ Nat.repr counter) (counter + 1)
    else candidate

/-- `_derive_prefix_from_ns(ns_uri)`: `used` is
`set(self.ns_to_prefix.values())`. -/
def derivePrefixFromNs (ns : String) (used : List String) : String :=
  deriveLoop (baseCandidate ns) used (used.length + 2) (baseCandidate ns) 2

/-! ### Registry collection (`_collect_prefixes_from_schema`) -/

/-- One iteration of `_collect_prefixes_from_schema`: register `(pfx,
ns)` unless the prefix is `None`, the namespace is the XSD namespace or
the root target namespace, or the namespace already has an entry.
Insertion order of the Python dict is kept by appending. -/
def collectOne (rootNs : Option String) (reg : List (String × String))
    (entry : Option String × String) : List (String × String) :=
  match entry.1 with
  | none => reg
  | some pfx =>
    if entry.2 = XSD ∨ some entry.2 = rootNs then reg
    else match reg.lookup entry.2 with
      | some _ => reg
      | none => reg ++ [(entry.2, pfx)]

/-- `_collect_prefixes_from_schema(schema_el)`: fold the schema's nsmap
into the global registry `ns_to_prefix`. -/
def collectPrefixes (rootNs : Option String) (reg : List (String × String))
    (nsmap : List (Option String × String)) : List (String × String) :=
  nsmap.foldl (collectOne rootNs) reg

/-! ### Import-time namespace/prefix assignment (`handle_imports`,
lines 141-159) -/

/-- `include_el.attrib.get("namespace") or include_schema.attrib.get("targetNamespace")`:
Python's `or` falls through on `None` and on the empty string. -/
def effectiveNs (nsAttr : Option String) (targetNs : Option String) :
    Option String :=
  match nsAttr with
  | some s => if s.isEmpty then targetNs else some s
  | none => targetNs

/-- Is an optional string truthy in Python (`if ns and ...`)? -/
def truthy : Option String → Bool
  | none => false
  | some s => ¬ s.isEmpty

/-- The registry mutation of `handle_imports` lines 147-152: when the
import's effective namespace is truthy and differs from the root target
namespace and has no (truthy) registry prefix yet, derive a prefix and
register it.  Returns the updated registry. -/
def assignImportNs (rootNs : Option String) (reg : List (String × String))
    (ns : Option String) : List (String × String) :=
  match ns with
  | none => reg
  | some s =>
    if s.isEmpty then reg
    else if some s = rootNs then reg
    else
      match reg.lookup s with
      | some p =>
        if p.isEmpty then
          reg.map fun kv =>
            if kv.1 = s then (s, derivePrefixFromNs s (reg.map Prod.snd))
            else kv
        else reg
      | none => reg ++ [(s, derivePrefixFromNs s (reg.map Prod.snd))]

/-! ### The import closure traversal (`handle_imports`) -/

/-- A parsed schema file, reduced to what drives the traversal and the
registry: its nsmap, its `targetNamespace`, and its `xsd:include |
xsd:import` directives in document order.  Each directive carries the
optional `namespace` attribute and its `schemaLocation` already
canonicalized to a resolved absolute path
(`(path.parent / loc).resolve()` in the source), modelled as `Nat`:
two directives reaching the same file yield the same path value. -/
structure SchemaFile where
  nsmap : List (Option String × String)
  targetNamespace : Option String
  imports : List (Option String × Nat)
deriving Repr, DecidableEq

/-- The mutable resolver state: `self.imported` (most recent first),
`self.ns_to_prefix`, and the order in which files' top-level contents
were appended to the main document. -/
structure ResolverState where
  imported : List Nat
  registry : List (String × String)
  merged : List Nat
deriving Repr, DecidableEq

/-- How a run of `handle_imports` can abort: `importError p` models the
exception `lxml.etree.parse` raises when the file at `p` is missing or
unparseable; `fuelExhausted` is an artifact of the fueled embedding and
is proved unreachable for sufficient fuel. -/
inductive RunError where
  | importError (path : Nat)
  | fuelExhausted
deriving Repr, DecidableEq

/-- One level of `ImportResolver.handle_imports(doc, path)`: iterate the
document's import directives; skip paths already imported; otherwise
record the path, parse the file (aborting if missing), fold its nsmap
into the registry, assign a prefix for its effective namespace, recurse
into its own imports (the `descend` argument), and finally append the
file's top-level contents to the main document (recorded in `merged`).
The attribute rewriting steps 1-5 act on attribute values only and are
modelled separately by `addUnlessQualified`,
`addUnlessQualifiedOrBuiltin` and `remapRefAttr`; they do not influence
the traversal. -/
def handleImportsList (fs : List (Nat × SchemaFile)) (rootNs : Option String)
    (descend : ResolverState → List (Option String × Nat) →
      Except RunError ResolverState)
    (st : ResolverState) (imps : List (Option String × Nat)) :
    Except RunError ResolverState :=
  match imps with
  | [] => .ok st
  | imp :: rest =>
    if imp.2 ∈ st.imported then handleImportsList fs rootNs descend st rest
    else
      match fs.lookup imp.2 with
      | none => .error (.importError imp.2)
      | some file =>
        match descend
            ⟨imp.2 :: st.imported,
              assignImportNs rootNs
                (collectPrefixes rootNs st.registry file.nsmap)
                (effectiveNs imp.1 file.targetNamespace),
              st.merged⟩ file.imports with
        | .error e => .error e
        | .ok st2 =>
          handleImportsList fs rootNs descend
            { st2 with merged := st2.merged ++ [imp.2] } rest

/-- `ImportResolver.handle_imports`, with explicit recursion-depth fuel.
Python's recursion is unbounded; `fuelExhausted` is an embedding
artifact proved unreachable for sufficient fuel (the import-depth is
bounded by the number of distinct files because each recursive call
first adds a fresh path to `self.imported`). -/
def handleImports (fs : List (Nat × SchemaFile)) (rootNs : Option String) :
    Nat → ResolverState → List (Option String × Nat) →
      Except RunError ResolverState
  | 0 => handleImportsList fs rootNs (fun _ _ => .error .fuelExhausted)
  | fuel + 1 => handleImportsList fs rootNs (handleImports fs rootNs fuel)

/-- The files reachable from the root document by following import
directives through files that exist. -/
inductive Reach (fs : List (Nat × SchemaFile))
    (rootImports : List (Option String × Nat)) : Nat → Prop where
  | root (imp : Option String × Nat) (hmem : imp ∈ rootImports) :
      Reach fs rootImports imp.2
  | step (q : Nat) (file : SchemaFile) (imp : Option String × Nat)
      (hq : Reach fs rootImports q) (hfile : fs.lookup q = some file)
      (hmem : imp ∈ file.imports) : Reach fs rootImports imp.2

/-- Number of known files not yet imported; the traversal's termination
measure. -/
def countNotImported (fs : List (Nat × SchemaFile))
    (imported : List Nat) : Nat :=
  ((fs.map Prod.fst).toFinset.filter (fun p => p ∉ imported)).card

/-- `ImportResolver.__init__` lines 94-99: the root prefix is the first
explicitly declared prefix of the root's own target namespace. -/
def detectRootPfx (rootNs : Option String)
    (nsmap : List (Option String × String)) : String :=
  match rootNs with
  | none => ""
  | some t =>
    match nsmap.find? (fun kv => kv.1 ≠ none ∧ kv.2 = t) with
    | some (some p, _) => p
    | _ => ""

/-- `ImportResolver.__init__` lines 100-105: seed the registry from the
root document's nsmap. -/
def seedRegistry (rootNs : Option String) (rootPfx : String)
    (nsmap : List (Option String × String)) : List (String × String) :=
  nsmap.foldl
    (fun reg kv =>
      match kv.1 with
      | none => reg
      | some pfx =>
        if kv.2 = XSD then reg
        else
          match reg.lookup kv.2 with
          | some _ => reg
          | none =>
            if some kv.2 = rootNs ∧ rootPfx.isEmpty then reg
            else reg ++ [(kv.2, pfx)])
    []

/-! ### Hierarchy & usage graph builder

The hierarchy/usage builder lives in the repository's renderer
(`xsd_browser.main.render_html` and the `main.html.j2` template, which
the tests exercise) and is not among the provided source files, so it
is modelled from the spec (§4.2). -/

/-- Modelled from the spec: the derivation kind of a named complex type
(§3 InheritanceChain, §4.2): direct content, `complexContent`
extension or restriction of a base, or `simpleContent` extension. -/
inductive Deriv where
  | direct
  | extension (base : String)
  | restriction (base : String)
  | simpleExtension (base : String)
deriving Repr, DecidableEq

/-- Modelled from the spec: a named type definition with its derivation
and the element names declared directly inside its content node (for a
restriction, those are exactly the redeclared elements). -/
structure TypeDef where
  name : String
  deriv : Deriv
  ownElements : List String
deriving Repr, DecidableEq

/-- Look a type up by qualified name in the frozen resolved document. -/
def findType (env : List TypeDef) (n : String) : Option TypeDef :=
  env.find? (fun t => t.name = n)

/-- Modelled from the spec (§4.2 inheritance resolution, absent from the
provided sources): the full rendered element set of a type.  Extension
inherits the base's full rendered content; restriction's content is
exactly the redeclared elements (the base is not consulted);
simple-content extension inherits no elements.  Fuel bounds the chain
walk; malformed cyclic chains simply exhaust it. -/
def renderedElements (env : List TypeDef) : Nat → String → List String
  | 0, _ => []
  | fuel + 1, n =>
    match findType env n with
    | none => []
    | some t =>
      match t.deriv with
      | .direct => t.ownElements
      | .extension b => renderedElements env fuel b ++ t.ownElements
      | .restriction _ => t.ownElements
      | .simpleExtension _ => []

/-- `d` is a derivation descendant of `anc` such that no type on the way
down (including `d` itself, excluding `anc`) declares the element `z` in
its own content node. -/
inductive DerivesAvoiding (env : List TypeDef) (z : String) (anc : String) :
    String → Prop where
  | refl : DerivesAvoiding env z anc anc
  | ext (d m : String) (t : TypeDef) (hfind : findType env d = some t)
      (hderiv : t.deriv = .extension m)
      (hup : DerivesAvoiding env z anc m) (hz : z ∉ t.ownElements) :
      DerivesAvoiding env z anc d
  | restr (d m : String) (t : TypeDef) (hfind : findType env d = some t)
      (hderiv : t.deriv = .restriction m)
      (hup : DerivesAvoiding env z anc m) (hz : z ∉ t.ownElements) :
      DerivesAvoiding env z anc d

/-- Modelled from the spec: a definition of the resolved document as the
usage-graph builder sees it: its qualified name and its outgoing direct
reference edges (extension/restriction base, declared element type,
`ref` targets, substitution-group head). -/
structure SDef where
  name : String
  base : Option String
  typeAttr : Option String
  refs : List String
  substGroup : Option String
deriving Repr, DecidableEq

/-- Does definition `d` reference `target` directly (one hop)? -/
def directlyReferences (d : SDef) (target : String) : Bool :=
  d.base = some target || d.typeAttr = some target ||
    d.refs.contains target || d.substGroup = some target

/-- Modelled from the spec (§4.2 usage graph construction, absent from
the provided sources): the usage entry of `target` lists the names of
the definitions that reference it directly. -/
def usageEntry (doc : List SDef) (target : String) : List String :=
  (doc.filter (fun d => directlyReferences d target)).map SDef.name

/-! ### Decimal representation helpers

Used to reason about the numeric suffixes `f"{base}{counter}"` of
`_derive_prefix_from_ns`, i.e. about `Nat.repr`. -/

/-- The decimal digit characters of `n`, most significant first;
reference version of `Nat.toDigits 10`. -/
def decDigits (n : Nat) : List Char :=
  if h : n < 10 then [Nat.digitChar n]
  else
    have : n / 10 < n := Nat.div_lt_self (by omega) (by omega)
    decDigits (n / 10) ++ [Nat.digitChar (n % 10)]

/-- Numeric value of a decimal digit character. -/
def charVal (c : Char) : Nat := c.toNat - 48

/-- Value of a most-significant-first decimal digit string. -/
def valOfDigits (l : List Char) : Nat :=
  l.foldl (fun a c => a * 10 + charVal c) 0

/-- `R` is closed under the import edges of existing files. -/
abbrev RespectsImports (fs : List (Nat × SchemaFile)) (R : Nat → Prop) : Prop :=
  ∀ q file, R q → fs.lookup q = some file → ∀ i, i ∈ file.imports → R i.2

/-- Specification of one `handle_imports` run from state `st` over the
directive list `imps`: either it succeeds, having imported a fresh set
`new` of existing `R`-files whose imports were all handled, reached
every directive's target, and appended exactly the new files' contents
to the merged document without duplicates — or it aborts with an import
error on a missing `R`-file. -/
abbrev GoodRun (fs : List (Nat × SchemaFile)) (R : Nat → Prop)
    (st : ResolverState) (imps : List (Option String × Nat))
    (res : Except RunError ResolverState) : Prop :=
  (∃ st' new, res = .ok st' ∧
    st'.imported = new ++ st.imported ∧
    (∀ q, q ∈ new → q ∉ st.imported ∧ R q ∧
      ∃ file, fs.lookup q = some file ∧
        ∀ i, i ∈ file.imports → i.2 ∈ st'.imported) ∧
    (∀ i, i ∈ imps → i.2 ∈ st'.imported) ∧
    (∃ dm, st'.merged = st.merged ++ dm ∧ dm.Nodup ∧
      ∀ q, q ∈ dm ↔ q ∈ new)) ∨
  (∃ q, R q ∧ fs.lookup q = none ∧ res = .error (.importError q))

/-! ## Theorems -/

theorem containsColon_append_left (a w : String)
    (ha : containsColon a = true) : containsColon (a ++ w) = true := by
  simp only [containsColon, String.data_append, List.contains,
    List.elem_eq_mem, decide_eq_true_eq, List.mem_append] at ha ⊢
  exact Or.inl ha

/-- Claim C10: every prefix-rewriting pass preserves already-qualified
values: a value containing `:` is left unchanged by the unprefixed-name
rewriting of `handle_imports` (names, `ref`, `type`, `base`) and by
`_prefix_root_elements`, and, since the prepended `add_prefix` itself
ends in `:`, re-applying any of those rewrites is a no-op. -/
theorem c10_qualified_values_preserved (add v : String)
    (hv : containsColon v = true) :
    addUnlessQualified add v = v ∧ addUnlessQualifiedOrBuiltin add v = v ∧
    rootName add v = v ∧ rootRef add v = v ∧ rootTypeBase add v = v ∧
    (containsColon add = true →
      ∀ w : String,
        addUnlessQualified add (addUnlessQualified add w) =
          addUnlessQualified add w ∧
        addUnlessQualifiedOrBuiltin add (addUnlessQualifiedOrBuiltin add w) =
          addUnlessQualifiedOrBuiltin add w ∧
        rootName add (rootName add w) = rootName add w ∧
        rootRef add (rootRef add w) = rootRef add w ∧
        rootTypeBase add (rootTypeBase add w) = rootTypeBase add w) := by
  refine ⟨?_, ?_, ?_, ?_, ?_, ?_⟩
  · simp [addUnlessQualified, hv]
  · simp [addUnlessQualifiedOrBuiltin, hv]
  · simp [rootName, hv]
  · simp [rootRef, hv]
  · simp [rootTypeBase, hv]
  · intro hadd w
    have hq : containsColon (add ++ w) = true := containsColon_append_left add w hadd
    refine ⟨?_, ?_, ?_, ?_, ?_⟩
    · by_cases hw : containsColon w = true
      · simp [addUnlessQualified, hw]
      · simp [addUnlessQualified, hw, hq]
    · by_cases hw : containsColon w = true
      · simp [addUnlessQualifiedOrBuiltin, hw]
      · by_cases hx : w.startsWith "xsd:" = true
        · simp [addUnlessQualifiedOrBuiltin, hw, hx]
        · simp [addUnlessQualifiedOrBuiltin, hw, hx, hq]
    · by_cases he : w.isEmpty = true
      · simp [rootName, he]
      · by_cases hw : containsColon w = true
        · simp [rootName, hw]
        · simp [rootName, he, hw, hq]
    · by_cases he : w.isEmpty = true
      · simp [rootRef, he]
      · by_cases hw : containsColon w = true
        · simp [rootRef, hw]
        · simp [rootRef, he, hw, hq]
    · by_cases he : w.isEmpty = true
      · simp [rootTypeBase, he]
      · by_cases hw : containsColon w = true
        · simp [rootTypeBase, hw]
        · by_cases hx : w.startsWith "xsd:" = true
          · simp [rootTypeBase, hw, hx]
          · simp [rootTypeBase, he, hw, hx, hq]

/-- Concrete instance of claim C10: the already-qualified value `a:T`
survives every rewrite with prefix `b:`, and re-applying the rewrite to
the freshly-prefixed value `b:T` changes nothing. -/
theorem c10_witness :
    addUnlessQualified "b:" "a:T" = "a:T" ∧
    addUnlessQualified "b:" (addUnlessQualified "b:" "T") =
      addUnlessQualified "b:" "T" := by
  refine ⟨(c10_qualified_values_preserved "b:" "a:T" (by decide)).1, ?_⟩
  exact ((c10_qualified_values_preserved "b:" "a:T" (by decide)).2.2.2.2.2
    (by decide) "T").1

theorem takeWhile_append_colon (p rest : List Char) (hp : ':' ∉ p) :
    (p ++ ':' :: rest).takeWhile (fun c => c ≠ ':') = p := by
  induction p with
  | nil => simp [List.takeWhile]
  | cons a p ih =>
    have ha : a ≠ ':' := fun h => hp (h ▸ List.mem_cons_self a p)
    have hp' : ':' ∉ p := fun h => hp (List.mem_cons_of_mem a h)
    simp only [List.cons_append, List.takeWhile_cons]
    simp [ha]
    simpa using ih hp'

theorem dropWhile_append_colon (p rest : List Char) (hp : ':' ∉ p) :
    (p ++ ':' :: rest).dropWhile (fun c => c ≠ ':') = ':' :: rest := by
  induction p with
  | nil => simp [List.dropWhile]
  | cons a p ih =>
    have ha : a ≠ ':' := fun h => hp (h ▸ List.mem_cons_self a p)
    have hp' : ':' ∉ p := fun h => hp (List.mem_cons_of_mem a h)
    simp only [List.cons_append, List.dropWhile_cons]
    simp [ha]
    simpa using ih hp'

theorem not_colon_mem_of_containsColon_false (p : String)
    (hp : containsColon p = false) : ':' ∉ p.data := by
  simp only [containsColon, List.contains, List.elem_eq_mem,
    decide_eq_false_iff_not] at hp
  exact hp

theorem splitColonOnce_parts (p l : String) (hp : containsColon p = false) :
    splitColonOnce (p ++ ":" ++ l) = some (p, l) := by
  have hmem : ':' ∉ p.data := not_colon_mem_of_containsColon_false p hp
  have hdata : (p ++ ":" ++ l).data = p.data ++ ':' :: l.data := by
    simp [String.data_append]
  simp only [splitColonOnce, hdata,
    dropWhile_append_colon p.data l.data hmem,
    takeWhile_append_colon p.data l.data hmem]

/-- Claim C3: step 5 of `handle_imports` resolves a prefixed reference
value `lp:loc` through the imported file's own nsmap to a namespace
`refNs` and re-emits it with the global registry's canonical prefix for
`refNs`; when `refNs` is the root target namespace, the root prefix is
used, or the prefix is stripped when the root declared none. -/
theorem c3_cross_namespace_remap (nsmap : List (Option String × String))
    (reg : List (String × String)) (rootNs : Option String)
    (rootPfx : String) (lp loc refNs : String)
    (hlp : containsColon lp = false)
    (hres : nsmap.lookup (some lp) = some refNs)
    (hxsd : refNs ≠ XSD) (hne : refNs.isEmpty = false) :
    (rootNs = some refNs →
      remapRefAttr nsmap reg rootNs rootPfx (lp ++ ":" ++ loc) =
        ⟨if rootPfx.isEmpty then loc else rootPfx ++ ":" ++ loc, []⟩) ∧
    (rootNs ≠ some refNs → ∀ rp, reg.lookup refNs = some rp →
      rp.isEmpty = false →
      remapRefAttr nsmap reg rootNs rootPfx (lp ++ ":" ++ loc) =
        ⟨rp ++ ":" ++ loc, []⟩) := by
  constructor
  · intro hroot
    by_cases hrpfx : rootPfx.isEmpty = true
    · simp [remapRefAttr, splitColonOnce_parts lp loc hlp, hres, hxsd, hne,
        hroot, hrpfx]
    · simp [remapRefAttr, splitColonOnce_parts lp loc hlp, hres, hxsd, hne,
        hroot, hrpfx]
  · intro hroot rp hrp hrpne
    have hroot' : ¬ rootNs = some refNs := hroot
    simp [remapRefAttr, splitColonOnce_parts lp loc hlp, hres, hxsd, hne,
      hroot', hrp, hrpne]

/-- Concrete instance of claim C3: inside an imported file declaring
`xmlns:aa` for namespace `urn:a`, the reference `aa:TypeA` is re-emitted
with the registry's canonical prefix `a`, and a reference to the root
namespace is re-emitted with the root prefix `tns`. -/
theorem c3_witness :
    remapRefAttr [(some "aa", "urn:a"), (some "rr", "urn:root")]
      [("urn:a", "a")] (some "urn:root") "tns" "aa:TypeA" =
      ⟨"a:TypeA", []⟩ ∧
    remapRefAttr [(some "aa", "urn:a"), (some "rr", "urn:root")]
      [("urn:a", "a")] (some "urn:root") "tns" "rr:RootType" =
      ⟨"tns:RootType", []⟩ := by
  constructor
  · exact (c3_cross_namespace_remap
      [(some "aa", "urn:a"), (some "rr", "urn:root")] [("urn:a", "a")]
      (some "urn:root") "tns" "aa" "TypeA" "urn:a" (by decide) (by decide)
      (by decide) (by decide)).2 (by decide) "a" (by decide) (by decide)
  · exact (c3_cross_namespace_remap
      [(some "aa", "urn:a"), (some "rr", "urn:root")] [("urn:a", "a")]
      (some "urn:root") "tns" "rr" "RootType" "urn:root" (by decide)
      (by decide) (by decide) (by decide)).1 rfl

/-- Claim C8: when a prefixed reference resolves to a namespace with no
registry entry, `handle_imports` keeps the attribute value unchanged and
logs a non-fatal diagnostic; `remapRefAttr` is a total function, so the
merge continues without raising. -/
theorem c8_unresolved_namespace_kept (nsmap : List (Option String × String))
    (reg : List (String × String)) (rootNs : Option String)
    (rootPfx : String) (lp loc refNs : String)
    (hlp : containsColon lp = false)
    (hres : nsmap.lookup (some lp) = some refNs)
    (hxsd : refNs ≠ XSD) (hne : refNs.isEmpty = false)
    (hroot : rootNs ≠ some refNs) (hreg : reg.lookup refNs = none) :
    (remapRefAttr nsmap reg rootNs rootPfx (lp ++ ":" ++ loc)).value =
      lp ++ ":" ++ loc ∧
    (remapRefAttr nsmap reg rootNs rootPfx (lp ++ ":" ++ loc)).warnings ≠
      [] := by
  have hroot' : ¬ rootNs = some refNs := hroot
  constructor
  · simp [remapRefAttr, splitColonOnce_parts lp loc hlp, hres, hxsd, hne,
      hroot', hreg]
  · simp [remapRefAttr, splitColonOnce_parts lp loc hlp, hres, hxsd, hne,
      hroot', hreg]

/-- Concrete instance of claim C8: a reference through a declared prefix
whose namespace is absent from the registry is left as it was, with a
warning logged. -/
theorem c8_witness :
    (remapRefAttr [(some "u", "urn:unknown")] [("urn:a", "a")] none ""
      "u:Thing").value = "u:Thing" ∧
    (remapRefAttr [(some "u", "urn:unknown")] [("urn:a", "a")] none ""
      "u:Thing").warnings ≠ [] := by
  have h := c8_unresolved_namespace_kept [(some "u", "urn:unknown")]
    [("urn:a", "a")] none "" "u" "Thing" "urn:unknown" (by decide)
    (by decide) (by decide) (by decide) (by decide) (by decide)
  exact h

theorem dropWhile_head_false (pred : Char → Bool) (l : List Char)
    (c : Char) (cs : List Char) (h : l.dropWhile pred = c :: cs) :
    pred c = false := by
  induction l with
  | nil => simp [List.dropWhile] at h
  | cons a l ih =>
    by_cases ha : pred a = true
    · rw [List.dropWhile_cons_of_pos ha] at h
      exact ih h
    · rw [List.dropWhile_cons_of_neg ha] at h
      cases h
      simpa using ha

theorem splitColonOnce_eq (v p l : String)
    (h : splitColonOnce v = some (p, l)) : v = p ++ ":" ++ l := by
  unfold splitColonOnce at h
  cases hd : v.data.dropWhile (fun c => c ≠ ':') with
  | nil => rw [hd] at h; exact absurd h (by simp)
  | cons c cs =>
    rw [hd] at h
    have hc : c = ':' := by
      have := dropWhile_head_false (fun c => decide (c ≠ ':')) v.data c cs hd
      simpa using this
    subst hc
    injection h with h'
    have hp : p = ⟨v.data.takeWhile (fun c => c ≠ ':')⟩ :=
      (congrArg Prod.fst h').symm
    have hl : l = ⟨cs⟩ := (congrArg Prod.snd h').symm
    apply String.ext
    rw [hp, hl]
    show v.data =
      (List.takeWhile (fun c => decide (c ≠ ':')) v.data ++ [':']) ++ cs
    rw [List.append_assoc, List.singleton_append, ← hd,
      List.takeWhile_append_dropWhile]

/-- Claim C9, counterexample: after the closure completes, a root
document element carrying `ref="xs:foo"`, with `xs` a declared alias of
the XSD namespace, keeps its non-canonical alias: the root-side pipeline
(`_prefix_root_elements` followed by `_normalize_xsd_prefixes`, which
touches only `type` and `base` attributes) never rewrites it to
`xsd:foo`, contradicting the claim for all attributes referring to that
namespace. -/
theorem c9_counterexample :
    normalizeXsdPrefixes ["xs"]
      [prefixRootElAttrs "tns:" ⟨[("ref", "xs:foo")]⟩] =
      [⟨[("ref", "xs:foo")]⟩] ∧ ("xs:foo" : String) ≠ "xsd:foo" := by
  constructor
  · rfl
  · decide

/-- Claim C9 (amended): `_normalize_xsd_prefixes` rewrites every
non-canonical XSD-namespace alias occurring in a `type` or `base`
attribute of the merged document to the canonical `xsd:` prefix; other
attributes (`ref`, `substitutionGroup`) are left to the per-import
remapping and are not normalized in the root document. -/
theorem c9_amended_type_base_normalized (xsdPrefixes : List String)
    (els : List XmlEl) (el : XmlEl) (hel : el ∈ els) :
    (⟨el.attrs.map fun kv =>
      if kv.1 = "type" ∨ kv.1 = "base" then
        (kv.1, normalizeXsdVal xsdPrefixes kv.2)
      else kv⟩ : XmlEl) ∈ normalizeXsdPrefixes xsdPrefixes els ∧
    (∀ v p l, splitColonOnce v = some (p, l) → p ∈ xsdPrefixes →
      normalizeXsdVal xsdPrefixes v = "xsd:" ++ l) := by
  constructor
  · exact List.mem_map_of_mem _ hel
  · intro v p l hsplit hmem
    by_cases hx : p = "xsd"
    · have hv := splitColonOnce_eq v p l hsplit
      simp only [normalizeXsdVal, hsplit, hx]
      simp only [hv, hx]
      simp
    · simp [normalizeXsdVal, hsplit, hmem, hx]

/-- Concrete instance of amended claim C9: `xs:string` in a `type`
attribute is normalized to `xsd:string`, and an already-canonical
`xsd:int` is untouched. -/
theorem c9_witness :
    normalizeXsdVal ["xs"] "xs:string" = "xsd:string" ∧
    normalizeXsdVal ["xs", "xsd"] "xsd:int" = "xsd:int" := by
  constructor
  · exact (c9_amended_type_base_normalized ["xs"] [⟨[]⟩] ⟨[]⟩
      (by simp)).2 "xs:string" "xs" "string" (by decide) (by decide)
  · exact (c9_amended_type_base_normalized ["xs", "xsd"] [⟨[]⟩] ⟨[]⟩
      (by simp)).2 "xsd:int" "xsd" "int" (by decide) (by decide)

theorem decDigits_lt (n : Nat) (h : n < 10) : decDigits n = [Nat.digitChar n] := by
  rw [decDigits]
  simp [h]

theorem decDigits_ge (n : Nat) (h : ¬ n < 10) :
    decDigits n = decDigits (n / 10) ++ [Nat.digitChar (n % 10)] := by
  rw [decDigits]
  simp [h]

theorem toDigitsCore_eq_decDigits :
    ∀ fuel n ds, n < fuel →
      Nat.toDigitsCore 10 fuel n ds = decDigits n ++ ds := by
  intro fuel
  induction fuel with
  | zero => intro n ds h; omega
  | succ f ih =>
    intro n ds h
    show (if n / 10 = 0 then Nat.digitChar (n % 10) :: ds
      else Nat.toDigitsCore 10 f (n / 10) (Nat.digitChar (n % 10) :: ds)) =
      decDigits n ++ ds
    by_cases h0 : n / 10 = 0
    · have hlt : n < 10 := by omega
      have hmod : n % 10 = n := by omega
      rw [if_pos h0, decDigits_lt n hlt, hmod]
      rfl
    · have hge : ¬ n < 10 := by omega
      have hfuel : n / 10 < f := by omega
      rw [if_neg h0, ih (n / 10) (Nat.digitChar (n % 10) :: ds) hfuel,
        decDigits_ge n hge, List.append_assoc, List.singleton_append]

theorem repr_data_eq_decDigits (n : Nat) : (Nat.repr n).data = decDigits n := by
  show (Nat.toDigits 10 n).asString.data = decDigits n
  show Nat.toDigitsCore 10 (n + 1) n [] = decDigits n
  rw [toDigitsCore_eq_decDigits (n + 1) n [] (Nat.lt_succ_self n),
    List.append_nil]

theorem charVal_digitChar (k : Nat) (h : k < 10) :
    charVal (Nat.digitChar k) = k := by
  interval_cases k <;> rfl

theorem valOfDigits_append_digit (l : List Char) (c : Char) :
    valOfDigits (l ++ [c]) = valOfDigits l * 10 + charVal c := by
  simp [valOfDigits, List.foldl_append]

theorem valOfDigits_decDigits (n : Nat) : valOfDigits (decDigits n) = n := by
  induction n using Nat.strong_induction_on with
  | _ n ih =>
    by_cases h : n < 10
    · rw [decDigits_lt n h]
      show 0 * 10 + charVal (Nat.digitChar n) = n
      rw [charVal_digitChar n h]
      omega
    · rw [decDigits_ge n h, valOfDigits_append_digit,
        ih (n / 10) (Nat.div_lt_self (by omega) (by omega)),
        charVal_digitChar (n % 10) (Nat.mod_lt n (by omega))]
      omega

theorem natRepr_injective (a b : Nat) (h : Nat.repr a = Nat.repr b) :
    a = b := by
  have hd : (Nat.repr a).data = (Nat.repr b).data := by rw [h]
  rw [repr_data_eq_decDigits, repr_data_eq_decDigits] at hd
  calc a = valOfDigits (decDigits a) := (valOfDigits_decDigits a).symm
    _ = valOfDigits (decDigits b) := by rw [hd]
    _ = b := valOfDigits_decDigits b

theorem append_natRepr_injective (base : String) (i j : Nat)
    (h : base ++ Nat.repr i = base ++ Nat.repr j) : i = j := by
  have hd : base.data ++ (Nat.repr i).data = base.data ++ (Nat.repr j).data := by
    have := congrArg String.data h
    simpa [String.data_append] using this
  have : (Nat.repr i).data = (Nat.repr j).data :=
    List.append_cancel_left hd
  exact natRepr_injective i j (String.ext this)

theorem exists_unused_candidate (base : String) (used : List String) :
    ∃ k, 2 ≤ k ∧ k ≤ used.length + 2 ∧ base ++ Nat.repr k ∉ used := by
  by_contra hcon
  push_neg at hcon
  have hinj : Function.Injective (fun k : Nat => base ++ Nat.repr k) :=
    fun a b h => append_natRepr_injective base a b h
  have hsub : (Finset.Icc 2 (used.length + 2)).image
      (fun k : Nat => base ++ Nat.repr k) ⊆ used.toFinset := by
    intro s hs
    rw [Finset.mem_image] at hs
    obtain ⟨k, hk, rfl⟩ := hs
    rw [Finset.mem_Icc] at hk
    rw [List.mem_toFinset]
    exact hcon k hk.1 hk.2
  have hcard : ((Finset.Icc 2 (used.length + 2)).image
      (fun k : Nat => base ++ Nat.repr k)).card = used.length + 1 := by
    rw [Finset.card_image_of_injective _ hinj, Nat.card_Icc]
    omega
  have hle := Finset.card_le_card hsub
  have := used.toFinset_card_le
  omega

theorem deriveLoop_spec (base : String) (used : List String) :
    ∀ fuel counter candidate,
      (candidate ∉ used ∨
        ∃ k, counter ≤ k ∧ k < counter + fuel ∧ base ++ Nat.repr k ∉ used) →
      ((candidate ∉ used ∧
          deriveLoop base used fuel candidate counter = candidate) ∨
        (candidate ∈ used ∧ ∃ k, counter ≤ k ∧
          deriveLoop base used fuel candidate counter = base ++ Nat.repr k ∧
          base ++ Nat.repr k ∉ used ∧
          ∀ j, counter ≤ j → j < k → base ++ Nat.repr j ∈ used)) := by
  intro fuel
  induction fuel with
  | zero =>
    intro counter candidate hyp
    rcases hyp with hfree | ⟨k, hk1, hk2, _⟩
    · exact Or.inl ⟨hfree, rfl⟩
    · omega
  | succ f ih =>
    intro counter candidate hyp
    by_cases hc : candidate ∈ used
    · have hrec : deriveLoop base used (f + 1) candidate counter =
          deriveLoop base used f (base ++ Nat.repr counter) (counter + 1) := by
        simp [deriveLoop, hc]
      rcases hyp with hfree | ⟨k, hk1, hk2, hk3⟩
      · exact absurd hc hfree
      rcases Nat.eq_or_lt_of_le hk1 with heq | hlt
      · have hk3' : base ++ Nat.repr counter ∉ used := by rw [heq]; exact hk3
        rcases ih (counter + 1) (base ++ Nat.repr counter) (Or.inl hk3') with
          ⟨hf, he⟩ | ⟨habs, _⟩
        · refine Or.inr ⟨hc, counter, le_refl counter, ?_, hf, ?_⟩
          · rw [hrec, he]
          · intro j h1 h2; omega
        · exact absurd habs hk3'
      · have hyp' : (base ++ Nat.repr counter) ∉ used ∨
            ∃ k', counter + 1 ≤ k' ∧ k' < counter + 1 + f ∧
              base ++ Nat.repr k' ∉ used := by
          by_cases hcand : (base ++ Nat.repr counter) ∈ used
          · exact Or.inr ⟨k, by omega, by omega, hk3⟩
          · exact Or.inl hcand
        rcases ih (counter + 1) (base ++ Nat.repr counter) hyp' with
          ⟨hf, he⟩ | ⟨hin, k', hk'1, he, hf, hmin⟩
        · refine Or.inr ⟨hc, counter, le_refl counter, ?_, hf, ?_⟩
          · rw [hrec, he]
          · intro j h1 h2; omega
        · refine Or.inr ⟨hc, k', by omega, ?_, hf, ?_⟩
          · rw [hrec, he]
          · intro j h1 h2
            rcases Nat.eq_or_lt_of_le h1 with rfl | hj
            · exact hin
            · exact hmin j (by omega) h2
    · exact Or.inl ⟨hc, by simp [deriveLoop, hc]⟩

/-- Claim C7: `_derive_prefix_from_ns` returns the lowercased first
`_`-separated component of the namespace identifier's last path segment
when that candidate is unused; otherwise it appends the smallest numeric
suffix starting at 2 that makes it unused.  In all cases the returned
prefix is not among the currently used prefixes. -/
theorem c7_derive_prefix_fresh (ns : String) (used : List String) :
    derivePrefixFromNs ns used ∉ used ∧
    (baseCandidate ns ∉ used → derivePrefixFromNs ns used = baseCandidate ns) ∧
    (baseCandidate ns ∈ used → ∃ k, 2 ≤ k ∧
      derivePrefixFromNs ns used = baseCandidate ns ++ Nat.repr k ∧
      ∀ j, 2 ≤ j → j < k → baseCandidate ns ++ Nat.repr j ∈ used) := by
  have hex := exists_unused_candidate (baseCandidate ns) used
  obtain ⟨k, hk1, hk2, hk3⟩ := hex
  have hyp : baseCandidate ns ∉ used ∨
      ∃ k', 2 ≤ k' ∧ k' < 2 + (used.length + 2) ∧
        baseCandidate ns ++ Nat.repr k' ∉ used := by
    by_cases hb : baseCandidate ns ∈ used
    · exact Or.inr ⟨k, hk1, by omega, hk3⟩
    · exact Or.inl hb
  have hspec := deriveLoop_spec (baseCandidate ns) used (used.length + 2) 2
    (baseCandidate ns) hyp
  rcases hspec with ⟨hf, he⟩ | ⟨hin, k', hk'1, he, hf, hmin⟩
  · refine ⟨?_, fun _ => he, fun habs => absurd habs hf⟩
    show deriveLoop (baseCandidate ns) used (used.length + 2)
      (baseCandidate ns) 2 ∉ used
    rw [he]; exact hf
  · refine ⟨?_, fun habs => absurd hin habs, fun _ => ⟨k', hk'1, he, hmin⟩⟩
    show deriveLoop (baseCandidate ns) used (used.length + 2)
      (baseCandidate ns) 2 ∉ used
    rw [he]; exact hf

/-- Concrete instances of claim C7, matching `TestDerivePrefix`: the
base candidate is derived from the URI, and a used candidate gets the
numeric suffix 2. -/
theorem c7_witness :
    derivePrefixFromNs "http://example.com/SomeModule_1_2" [] =
      "somemodule" ∧
    derivePrefixFromNs "http://example.com/TEC_3_4" ["tec"] ∉ ["tec"] := by
  constructor
  · exact (c7_derive_prefix_fresh "http://example.com/SomeModule_1_2"
      []).2.1 (by decide)
  · exact (c7_derive_prefix_fresh "http://example.com/TEC_3_4" ["tec"]).1

theorem lookup_append_some {α β : Type} [BEq α] (l1 l2 : List (α × β))
    (a : α) (b : β) (h : l1.lookup a = some b) :
    (l1 ++ l2).lookup a = some b := by
  induction l1 with
  | nil => simp [List.lookup] at h
  | cons hd tl ih =>
    rw [List.cons_append]
    cases hbeq : a == hd.1 with
    | true => simpa [List.lookup, hbeq] using h
    | false =>
      rw [List.lookup] at h
      rw [List.lookup]
      simp only [hbeq] at h ⊢
      exact ih h

theorem lookup_append_none {α β : Type} [BEq α] (l1 l2 : List (α × β))
    (a : α) (h : l1.lookup a = none) :
    (l1 ++ l2).lookup a = l2.lookup a := by
  induction l1 with
  | nil => simp
  | cons hd tl ih =>
    rw [List.cons_append]
    cases hbeq : a == hd.1 with
    | true => simp [List.lookup, hbeq] at h
    | false =>
      rw [List.lookup] at h
      rw [List.lookup]
      simp only [hbeq] at h ⊢
      exact ih h

theorem collectOne_stable (rootNs : Option String)
    (reg : List (String × String)) (e : Option String × String)
    (ns p : String) (h : reg.lookup ns = some p) :
    (collectOne rootNs reg e).lookup ns = some p := by
  unfold collectOne
  cases e.1 with
  | none => exact h
  | some pfx =>
    by_cases hcond : e.2 = XSD ∨ some e.2 = rootNs
    · simp only [if_pos hcond]; exact h
    · simp only [if_neg hcond]
      cases hl : reg.lookup e.2 with
      | some q => exact h
      | none => exact lookup_append_some reg [(e.2, pfx)] ns p h

theorem collectPrefixes_stable (rootNs : Option String)
    (nsmap : List (Option String × String)) :
    ∀ reg ns p, reg.lookup ns = some p →
      (collectPrefixes rootNs reg nsmap).lookup ns = some p := by
  induction nsmap with
  | nil => intro reg ns p h; exact h
  | cons e tl ih =>
    intro reg ns p h
    exact ih (collectOne rootNs reg e) ns p
      (collectOne_stable rootNs reg e ns p h)

theorem collectOne_registers (rootNs : Option String)
    (reg : List (String × String)) (pfx ns : String)
    (hx : ns ≠ XSD) (hr : some ns ≠ rootNs) :
    ∃ q, (collectOne rootNs reg (some pfx, ns)).lookup ns = some q := by
  unfold collectOne
  have hcond : ¬ ((some pfx, ns).2 = XSD ∨ some (some pfx, ns).2 = rootNs) := by
    simp only []
    rintro (h | h)
    · exact hx h
    · exact hr h
  simp only [if_neg hcond]
  cases hl : reg.lookup ns with
  | some q => exact ⟨q, hl⟩
  | none =>
    refine ⟨pfx, ?_⟩
    rw [lookup_append_none reg [(ns, pfx)] ns hl]
    simp [List.lookup]

/-- Claim C1, counterexample: the scenario of `TestPrefixCollision` —
two imported schemas each declaring the local prefix `shared` for two
different namespaces.  After the full resolution run, `ns_to_prefix`
maps BOTH distinct namespaces to the same prefix `shared`:
`_collect_prefixes_from_schema` registers a file's local prefix for a
new namespace without checking whether it is already assigned to
another namespace, so prefix assignment is not injective. -/
theorem c1_counterexample :
    handleImports
      [(1, ⟨[(some "shared", "http://example.com/d")],
        some "http://example.com/d", []⟩),
       (2, ⟨[(some "shared", "http://example.com/e")],
        some "http://example.com/e", []⟩)]
      (some "http://example.com/main") 3
      ⟨[], seedRegistry (some "http://example.com/main") "" [], []⟩
      [(none, 1), (none, 2)] =
      .ok ⟨[2, 1],
        [("http://example.com/d", "shared"),
         ("http://example.com/e", "shared")],
        [1, 2]⟩ ∧
    ("http://example.com/d" : String) ≠ "http://example.com/e" := by
  exact ⟨rfl, by decide⟩

/-- Claim C1 (amended): the registry is first-come-first-served per
namespace: once a namespace has an entry it is never reassigned by
`_collect_prefixes_from_schema`, and every namespace declared with an
explicit prefix (other than the XSD and root target namespaces) ends up
registered — but two distinct namespaces may receive the same collected
prefix; injectivity is only enforced for prefixes produced by
`_derive_prefix_from_ns`. -/
theorem c1_amended_registry_first_come (rootNs : Option String)
    (reg : List (String × String)) (nsmap : List (Option String × String)) :
    (∀ ns p, reg.lookup ns = some p →
      (collectPrefixes rootNs reg nsmap).lookup ns = some p) ∧
    (∀ pfx ns, (some pfx, ns) ∈ nsmap → ns ≠ XSD → some ns ≠ rootNs →
      ∃ q, (collectPrefixes rootNs reg nsmap).lookup ns = some q) := by
  constructor
  · exact fun ns p h => collectPrefixes_stable rootNs nsmap reg ns p h
  · intro pfx ns hmem hx hr
    induction nsmap generalizing reg with
    | nil => simp at hmem
    | cons e tl ih =>
      rcases List.mem_cons.mp hmem with rfl | htl
      · obtain ⟨q, hq⟩ := collectOne_registers rootNs reg pfx ns hx hr
        exact ⟨q, collectPrefixes_stable rootNs tl
          (collectOne rootNs reg (some pfx, ns)) ns q hq⟩
      · exact ih (collectOne rootNs reg e) htl

/-- Concrete instance of amended claim C1: collecting a schema's nsmap
registers its namespace under its declared prefix, and a pre-existing
entry survives a later collect. -/
theorem c1_witness :
    (∃ q, (collectPrefixes none [] [(some "shared", "urn:d")]).lookup
      "urn:d" = some q) ∧
    (collectPrefixes none [("urn:d", "shared")]
      [(some "shared", "urn:e")]).lookup "urn:d" = some "shared" := by
  constructor
  · exact (c1_amended_registry_first_come none []
      [(some "shared", "urn:d")]).2 "shared" "urn:d" (by simp)
      (by decide) (by decide)
  · exact (c1_amended_registry_first_come none [("urn:d", "shared")]
      [(some "shared", "urn:e")]).1 "urn:d" "shared" (by simp [List.lookup])

/-- Claim C4: for a restriction-derived type the rendered (inherited)
element set is exactly the elements redeclared inside the restriction
node, and an element of the base that is not redeclared never reappears
for that type or for any derivation descendant that does not itself
redeclare it. -/
theorem c4_restriction_drops_propagate (env : List TypeDef) (n b z : String)
    (t : TypeDef) (hfind : findType env n = some t)
    (hderiv : t.deriv = .restriction b) :
    (∀ fuel, renderedElements env (fuel + 1) n = t.ownElements) ∧
    (z ∉ t.ownElements →
      ∀ d, DerivesAvoiding env z n d → ∀ fuel,
        z ∉ renderedElements env fuel d) := by
  have hexact : ∀ fuel, renderedElements env (fuel + 1) n = t.ownElements := by
    intro fuel
    simp [renderedElements, hfind, hderiv]
  refine ⟨hexact, ?_⟩
  intro hz d hchain
  induction hchain with
  | refl =>
    intro fuel
    cases fuel with
    | zero => simp [renderedElements]
    | succ f => rw [hexact f]; exact hz
  | ext d' m t' hfind' hderiv' hup hz' ih =>
    intro fuel
    cases fuel with
    | zero => simp [renderedElements]
    | succ f =>
      simp only [renderedElements, hfind', hderiv', List.mem_append]
      rintro (hmem | hmem)
      · exact ih f hmem
      · exact hz' hmem
  | restr d' m t' hfind' hderiv' hup hz' ih =>
    intro fuel
    cases fuel with
    | zero => simp [renderedElements]
    | succ f =>
      simp only [renderedElements, hfind', hderiv']
      exact hz'

/-- Concrete instance of claim C4, the spec's §8 scenario: `Base` with
elements x, y, z, restricted by `R1` redeclaring x and y, extended by
`R2` adding w.  `R1` renders exactly x, y; z never reappears in `R2`. -/
theorem c4_witness :
    renderedElements
      [⟨"Base", .direct, ["x", "y", "z"]⟩,
       ⟨"R1", .restriction "Base", ["x", "y"]⟩,
       ⟨"R2", .extension "R1", ["w"]⟩] 3 "R2" = ["x", "y", "w"] ∧
    "z" ∉ renderedElements
      [⟨"Base", .direct, ["x", "y", "z"]⟩,
       ⟨"R1", .restriction "Base", ["x", "y"]⟩,
       ⟨"R2", .extension "R1", ["w"]⟩] 3 "R2" := by
  constructor
  · rfl
  · exact (c4_restriction_drops_propagate
      [⟨"Base", .direct, ["x", "y", "z"]⟩,
       ⟨"R1", .restriction "Base", ["x", "y"]⟩,
       ⟨"R2", .extension "R1", ["w"]⟩] "R1" "Base" "z"
      ⟨"R1", .restriction "Base", ["x", "y"]⟩ rfl rfl).2 (by decide) "R2"
      (DerivesAvoiding.ext "R2" "R1" ⟨"R2", .extension "R1", ["w"]⟩ rfl rfl
        DerivesAvoiding.refl (by decide)) 3

/-- Claim C5: a usage entry holds exactly the direct (one-hop)
referrers of its target; a top-level element is a direct user of its own
declared type; and a definition with no direct reference to the target
(under globally unique names) is absent from the target's usage entry —
in particular the leaf of a three-level extension chain is not in the
base's entry. -/
theorem c5_usage_one_hop (doc : List SDef) (target : String) :
    (∀ nm, nm ∈ usageEntry doc target ↔
      ∃ d, d ∈ doc ∧ d.name = nm ∧ directlyReferences d target = true) ∧
    (∀ d, d ∈ doc → d.typeAttr = some target →
      d.name ∈ usageEntry doc target) ∧
    (∀ d, d ∈ doc →
      (∀ d', d' ∈ doc → d'.name = d.name →
        directlyReferences d' target = false) →
      d.name ∉ usageEntry doc target) := by
  have hchar : ∀ nm, nm ∈ usageEntry doc target ↔
      ∃ d, d ∈ doc ∧ d.name = nm ∧ directlyReferences d target = true := by
    intro nm
    constructor
    · intro h
      rw [usageEntry, List.mem_map] at h
      obtain ⟨d, hd, rfl⟩ := h
      rw [List.mem_filter] at hd
      exact ⟨d, hd.1, rfl, hd.2⟩
    · rintro ⟨d, hd, rfl, href⟩
      rw [usageEntry, List.mem_map]
      exact ⟨d, List.mem_filter.mpr ⟨hd, href⟩, rfl⟩
  refine ⟨hchar, ?_, ?_⟩
  · intro d hd htype
    exact (hchar d.name).mpr ⟨d, hd, rfl, by
      simp [directlyReferences, htype]⟩
  · intro d hd hnone habs
    obtain ⟨d', hd', hname, href⟩ := (hchar d.name).mp habs
    rw [hnone d' hd' hname] at href
    exact Bool.false_ne_true href

/-- Concrete instance of claim C5, matching `TestTypeUsages`: in the
chain AnimalBase → Dog → ServiceDog with a top-level element `Animal` of
type AnimalBase, AnimalBase's usage entry is exactly Dog and Animal, and
ServiceDog (two hops away) is not in it. -/
theorem c5_witness :
    usageEntry
      [⟨"AnimalBase", none, none, [], none⟩,
       ⟨"Dog", some "AnimalBase", none, [], none⟩,
       ⟨"ServiceDog", some "Dog", none, [], none⟩,
       ⟨"Animal", none, some "AnimalBase", [], none⟩] "AnimalBase" =
      ["Dog", "Animal"] ∧
    "ServiceDog" ∉ usageEntry
      [⟨"AnimalBase", none, none, [], none⟩,
       ⟨"Dog", some "AnimalBase", none, [], none⟩,
       ⟨"ServiceDog", some "Dog", none, [], none⟩,
       ⟨"Animal", none, some "AnimalBase", [], none⟩] "AnimalBase" := by
  constructor
  · rfl
  · exact (c5_usage_one_hop
      [⟨"AnimalBase", none, none, [], none⟩,
       ⟨"Dog", some "AnimalBase", none, [], none⟩,
       ⟨"ServiceDog", some "Dog", none, [], none⟩,
       ⟨"Animal", none, some "AnimalBase", [], none⟩] "AnimalBase").2.2
      ⟨"ServiceDog", some "Dog", none, [], none⟩ (by simp) (by decide)

theorem lookup_some_mem_keys {β : Type} (l : List (Nat × β)) (p : Nat)
    (b : β) (h : l.lookup p = some b) : p ∈ l.map Prod.fst := by
  induction l with
  | nil => simp [List.lookup] at h
  | cons hd tl ih =>
    rw [List.lookup] at h
    cases hbeq : p == hd.1 with
    | true =>
      have : p = hd.1 := by simpa using hbeq
      simp [this]
    | false =>
      simp only [hbeq] at h
      simp [ih h]

theorem lookup_some_mem_pair {β : Type} (l : List (Nat × β)) (p : Nat)
    (b : β) (h : l.lookup p = some b) : (p, b) ∈ l := by
  induction l with
  | nil => simp [List.lookup] at h
  | cons hd tl ih =>
    rw [List.lookup] at h
    cases hbeq : p == hd.1 with
    | true =>
      have hp : p = hd.1 := by simpa using hbeq
      simp only [hbeq] at h
      injection h with h
      have : (p, b) = hd := by
        rw [Prod.ext_iff]
        exact ⟨hp, h.symm⟩
      rw [this]
      exact List.mem_cons_self hd tl
    | false =>
      simp only [hbeq] at h
      exact List.mem_cons_of_mem hd (ih h)

theorem countNotImported_mono (fs : List (Nat × SchemaFile))
    (l1 l2 : List Nat) (h : ∀ p, p ∈ l1 → p ∈ l2) :
    countNotImported fs l2 ≤ countNotImported fs l1 := by
  apply Finset.card_le_card
  intro p hp
  rw [Finset.mem_filter] at hp ⊢
  exact ⟨hp.1, fun hmem => hp.2 (h p hmem)⟩

theorem countNotImported_strict (fs : List (Nat × SchemaFile)) (p : Nat)
    (imported : List Nat) (hkey : p ∈ fs.map Prod.fst)
    (hnot : p ∉ imported) :
    countNotImported fs (p :: imported) < countNotImported fs imported := by
  apply Finset.card_lt_card
  rw [Finset.ssubset_iff_of_subset]
  · refine ⟨p, ?_, ?_⟩
    · rw [Finset.mem_filter]
      exact ⟨List.mem_toFinset.mpr hkey, hnot⟩
    · rw [Finset.mem_filter]
      rintro ⟨-, habs⟩
      exact habs (List.mem_cons_self p imported)
  · intro q hq
    rw [Finset.mem_filter] at hq ⊢
    exact ⟨hq.1, fun hmem => hq.2 (List.mem_cons_of_mem p hmem)⟩

theorem countNotImported_le_length (fs : List (Nat × SchemaFile)) :
    countNotImported fs [] ≤ fs.length := by
  calc countNotImported fs []
      ≤ (fs.map Prod.fst).toFinset.card := Finset.card_filter_le _ _
    _ ≤ (fs.map Prod.fst).length := (fs.map Prod.fst).toFinset_card_le
    _ = fs.length := List.length_map fs Prod.fst

theorem handleImportsList_skip (fs : List (Nat × SchemaFile))
    (rootNs : Option String)
    (d : ResolverState → List (Option String × Nat) →
      Except RunError ResolverState)
    (st : ResolverState) (imp : Option String × Nat)
    (rest : List (Option String × Nat)) (h : imp.2 ∈ st.imported) :
    handleImportsList fs rootNs d st (imp :: rest) =
      handleImportsList fs rootNs d st rest := by
  rw [handleImportsList]
  simp [h]

theorem handleImportsList_missing (fs : List (Nat × SchemaFile))
    (rootNs : Option String)
    (d : ResolverState → List (Option String × Nat) →
      Except RunError ResolverState)
    (st : ResolverState) (imp : Option String × Nat)
    (rest : List (Option String × Nat)) (h : imp.2 ∉ st.imported)
    (hlook : fs.lookup imp.2 = none) :
    handleImportsList fs rootNs d st (imp :: rest) =
      .error (.importError imp.2) := by
  rw [handleImportsList]
  simp [h, hlook]

theorem handleImportsList_descend (fs : List (Nat × SchemaFile))
    (rootNs : Option String)
    (d : ResolverState → List (Option String × Nat) →
      Except RunError ResolverState)
    (st : ResolverState) (imp : Option String × Nat)
    (rest : List (Option String × Nat)) (file : SchemaFile)
    (h : imp.2 ∉ st.imported) (hlook : fs.lookup imp.2 = some file) :
    handleImportsList fs rootNs d st (imp :: rest) =
      match d ⟨imp.2 :: st.imported,
          assignImportNs rootNs
            (collectPrefixes rootNs st.registry file.nsmap)
            (effectiveNs imp.1 file.targetNamespace),
          st.merged⟩ file.imports with
      | .error e => .error e
      | .ok st2 =>
        handleImportsList fs rootNs d
          { st2 with merged := st2.merged ++ [imp.2] } rest := by
  rw [handleImportsList]
  simp [h, hlook]

theorem handleImports_goodRun (fs : List (Nat × SchemaFile))
    (rootNs : Option String) (R : Nat → Prop)
    (hRC : RespectsImports fs R) :
    ∀ fuel st imps, countNotImported fs st.imported < fuel →
      (∀ i, i ∈ imps → R i.2) →
      GoodRun fs R st imps (handleImports fs rootNs fuel st imps) := by
  intro fuel
  induction fuel with
  | zero => intro st imps hfuel _; omega
  | succ f ih =>
    intro st imps
    induction imps generalizing st with
    | nil =>
      intro hfuel hR
      exact Or.inl ⟨st, [], rfl, by simp, by simp, by simp,
        ⟨[], by simp, List.nodup_nil, by simp⟩⟩
    | cons imp rest ihrest =>
      intro hfuel hR
      show GoodRun fs R st (imp :: rest)
        (handleImportsList fs rootNs (handleImports fs rootNs f) st
          (imp :: rest))
      by_cases hskip : imp.2 ∈ st.imported
      · rw [handleImportsList_skip fs rootNs _ st imp rest hskip]
        have hrest := ihrest st hfuel
          (fun i hi => hR i (List.mem_cons_of_mem imp hi))
        rcases hrest with ⟨stF, new, hres, himp, hnew, htgt, dm, hm, hnd, hdm⟩ |
          ⟨q, hRq, hnone, herr⟩
        · refine Or.inl ⟨stF, new, hres, himp, hnew, ?_, ⟨dm, hm, hnd, hdm⟩⟩
          intro i hi
          rcases List.mem_cons.mp hi with rfl | hi'
          · rw [himp]
            exact List.mem_append_right new hskip
          · exact htgt i hi'
        · exact Or.inr ⟨q, hRq, hnone, herr⟩
      · cases hlook : fs.lookup imp.2 with
        | none =>
          rw [handleImportsList_missing fs rootNs _ st imp rest hskip hlook]
          exact Or.inr ⟨imp.2, hR imp (List.mem_cons_self imp rest), hlook,
            rfl⟩
        | some file =>
          rw [handleImportsList_descend fs rootNs _ st imp rest file hskip
            hlook]
          have hRp : R imp.2 := hR imp (List.mem_cons_self imp rest)
          have hRimports : ∀ i, i ∈ file.imports → R i.2 :=
            hRC imp.2 file hRp hlook
          have hkey : imp.2 ∈ fs.map Prod.fst :=
            lookup_some_mem_keys fs imp.2 file hlook
          have hcount :
              countNotImported fs (imp.2 :: st.imported) < f := by
            have := countNotImported_strict fs imp.2 st.imported hkey hskip
            omega
          have hdesc := ih ⟨imp.2 :: st.imported,
            assignImportNs rootNs
              (collectPrefixes rootNs st.registry file.nsmap)
              (effectiveNs imp.1 file.targetNamespace),
            st.merged⟩ file.imports hcount hRimports
          rcases hdesc with ⟨st2, new1, heq2, himp2, hnew1, htgt1,
            dm1, hm1, hnd1, hdm1⟩ | ⟨q, hRq, hqnone, herr⟩
          · rw [heq2]
            have hsub02 : ∀ p, p ∈ st.imported → p ∈ st2.imported := by
              intro p hp
              rw [himp2]
              exact List.mem_append_right new1 (List.mem_cons_of_mem _ hp)
            have hp2mem : imp.2 ∈ st2.imported := by
              rw [himp2]
              exact List.mem_append_right new1
                (List.mem_cons_self imp.2 st.imported)
            have hfuel3 : countNotImported fs
                ({ st2 with merged := st2.merged ++ [imp.2] } :
                  ResolverState).imported < f + 1 := by
              show countNotImported fs st2.imported < f + 1
              have := countNotImported_mono fs st.imported st2.imported
                hsub02
              omega
            have hrest := ihrest { st2 with merged := st2.merged ++ [imp.2] }
              hfuel3 (fun i hi => hR i (List.mem_cons_of_mem imp hi))
            rcases hrest with ⟨stF, new2, hresF, himpF, hnew2, htgt2,
              dm2, hmF, hnd2, hdm2⟩ | ⟨q, hRq, hnone, herrF⟩
            · have hsub2F : ∀ p, p ∈ st2.imported → p ∈ stF.imported := by
                intro p hp
                rw [himpF]
                exact List.mem_append_right new2 hp
              refine Or.inl ⟨stF, new2 ++ new1 ++ [imp.2], hresF, ?_, ?_,
                ?_, ?_⟩
              · rw [himpF, himp2]
                simp
              · intro q hq
                rcases List.mem_append.mp hq with hq' | hq'
                · rcases List.mem_append.mp hq' with hq2 | hq1
                  · obtain ⟨hnotin, hRq, fileq, hlq, hiq⟩ := hnew2 q hq2
                    refine ⟨?_, hRq, fileq, hlq, hiq⟩
                    exact fun habs => hnotin (hsub02 q habs)
                  · obtain ⟨hnotin, hRq, fileq, hlq, hiq⟩ := hnew1 q hq1
                    refine ⟨?_, hRq, fileq, hlq, ?_⟩
                    · exact fun habs => hnotin (List.mem_cons_of_mem _ habs)
                    · exact fun i hi => hsub2F i.2 (hiq i hi)
                · have hq' : q = imp.2 := by simpa using hq'
                  subst hq'
                  exact ⟨hskip, hRp, file, hlook,
                    fun i hi => hsub2F i.2 (htgt1 i hi)⟩
              · intro i hi
                rcases List.mem_cons.mp hi with heqi | hi'
                · rw [heqi]
                  exact hsub2F imp.2 hp2mem
                · exact htgt2 i hi'
              · refine ⟨dm1 ++ [imp.2] ++ dm2, ?_, ?_, ?_⟩
                · rw [hmF]
                  show st2.merged ++ [imp.2] ++ dm2 =
                    st.merged ++ (dm1 ++ [imp.2] ++ dm2)
                  rw [hm1]
                  simp
                · have hp_dm1 : imp.2 ∉ dm1 := by
                    intro habs
                    obtain ⟨hnotin, -, -⟩ := hnew1 imp.2 ((hdm1 imp.2).mp habs)
                    exact hnotin (List.mem_cons_self imp.2 st.imported)
                  have hp_dm2 : imp.2 ∉ dm2 := by
                    intro habs
                    obtain ⟨hnotin, -, -⟩ := hnew2 imp.2 ((hdm2 imp.2).mp habs)
                    exact hnotin hp2mem
                  have hdisj : ∀ q, q ∈ dm1 → q ∉ dm2 := by
                    intro q hq1 hq2
                    obtain ⟨hnotin2, -, -⟩ := hnew2 q ((hdm2 q).mp hq2)
                    have hq1' : q ∈ new1 := (hdm1 q).mp hq1
                    have : q ∈ st2.imported := by
                      rw [himp2]
                      exact List.mem_append_left _ hq1'
                    exact hnotin2 this
                  rw [List.nodup_append, List.nodup_append]
                  refine ⟨⟨hnd1, List.nodup_singleton imp.2, ?_⟩, hnd2, ?_⟩
                  · intro q hq
                    simp only [List.mem_singleton]
                    intro habs
                    exact hp_dm1 (habs ▸ hq)
                  · intro q hq
                    rcases List.mem_append.mp hq with hq1 | hqp
                    · exact hdisj q hq1
                    · have : q = imp.2 := by simpa using hqp
                      subst this
                      exact hp_dm2
                · intro q
                  constructor
                  · intro hq
                    rcases List.mem_append.mp hq with hq' | hq2
                    · rcases List.mem_append.mp hq' with hq1 | hqp
                      · exact List.mem_append_left _
                          (List.mem_append_right new2 ((hdm1 q).mp hq1))
                      · exact List.mem_append_right _ hqp
                    · exact List.mem_append_left _
                        (List.mem_append_left new1 ((hdm2 q).mp hq2))
                  · intro hq
                    rcases List.mem_append.mp hq with hq' | hqp
                    · rcases List.mem_append.mp hq' with hq2 | hq1
                      · exact List.mem_append_right _ ((hdm2 q).mpr hq2)
                      · exact List.mem_append_left _
                          (List.mem_append_left _ ((hdm1 q).mpr hq1))
                    · exact List.mem_append_left _
                        (List.mem_append_right dm1 hqp)
            · exact Or.inr ⟨q, hRq, hnone, herrF⟩
          · rw [herr]
            exact Or.inr ⟨q, hRq, hqnone, rfl⟩

theorem reach_lookup_isSome (fs : List (Nat × SchemaFile))
    (rootImps : List (Option String × Nat))
    (hclosed1 : ∀ i, i ∈ rootImps → (fs.lookup i.2).isSome = true)
    (hclosed2 : ∀ pr, pr ∈ fs → ∀ i, i ∈ pr.2.imports →
      (fs.lookup i.2).isSome = true) :
    ∀ p, Reach fs rootImps p → (fs.lookup p).isSome = true := by
  intro p hp
  induction hp with
  | root i hmem => exact hclosed1 i hmem
  | step q file i hq hfile hmem ih =>
    exact hclosed2 (q, file) (lookup_some_mem_pair fs q file hfile) i hmem

/-- Claim C2: on any import graph whose reachable files all exist —
diamonds and cycles included — `handle_imports` terminates with fuel
`|fs| + 1` and appends each distinct reachable file's top-level
contents to the root document exactly once, keyed by canonical path. -/
theorem c2_each_file_merged_once (fs : List (Nat × SchemaFile))
    (rootNs : Option String) (reg0 : List (String × String))
    (rootImps : List (Option String × Nat))
    (hclosed1 : ∀ i, i ∈ rootImps → (fs.lookup i.2).isSome = true)
    (hclosed2 : ∀ pr, pr ∈ fs → ∀ i, i ∈ pr.2.imports →
      (fs.lookup i.2).isSome = true) :
    ∃ st', handleImports fs rootNs (fs.length + 1) ⟨[], reg0, []⟩
        rootImps = .ok st' ∧ st'.merged.Nodup ∧
      (∀ p, p ∈ st'.merged ↔ Reach fs rootImps p) := by
  have hfuel : countNotImported fs ([] : List Nat) < fs.length + 1 := by
    have := countNotImported_le_length fs
    omega
  have hRC : RespectsImports fs (Reach fs rootImps) :=
    fun q file hq hfile i hi => Reach.step q file i hq hfile hi
  have hgood := handleImports_goodRun fs rootNs (Reach fs rootImps) hRC
    (fs.length + 1) ⟨[], reg0, []⟩ rootImps hfuel
    (fun i hi => Reach.root i hi)
  rcases hgood with ⟨st', new, hres, himp, hnew, htgt, dm, hm, hnd, hdm⟩ |
    ⟨q, hRq, hqnone, herr⟩
  · have himem : ∀ r, Reach fs rootImps r → r ∈ st'.imported := by
      intro r hr
      induction hr with
      | root i hmem => exact htgt i hmem
      | step q' file i hq' hfile hmem ih =>
        have hq'new : q' ∈ new := by
          rw [himp] at ih
          simpa using ih
        obtain ⟨-, -, file', hl', hi'⟩ := hnew q' hq'new
        rw [hfile] at hl'
        injection hl' with hfe
        subst hfe
        exact hi' i hmem
    refine ⟨st', hres, ?_, ?_⟩
    · rw [hm]
      simpa using hnd
    · intro p
      constructor
      · intro hp
        rw [hm] at hp
        have hp' : p ∈ dm := by simpa using hp
        obtain ⟨-, hRp, -⟩ := hnew p ((hdm p).mp hp')
        exact hRp
      · intro hp
        have hpimp := himem p hp
        have hpnew : p ∈ new := by
          rw [himp] at hpimp
          simpa using hpimp
        have hpdm : p ∈ dm := (hdm p).mpr hpnew
        rw [hm]
        simpa using hpdm
  · have := reach_lookup_isSome fs rootImps hclosed1 hclosed2 q hRq
    rw [hqnone] at this
    simp at this

/-- Concrete instance of claim C2: a diamond with a back-edge cycle —
the root imports files 1 and 2, both import file 3, and 3 imports 1
again.  The run succeeds and merges each of 1, 2, 3 exactly once. -/
theorem c2_witness :
    ∃ st', handleImports
      [(1, ⟨[], none, [(none, 3)]⟩), (2, ⟨[], none, [(none, 3)]⟩),
       (3, ⟨[], none, [(none, 1)]⟩)] none 4 ⟨[], [], []⟩
      [(none, 1), (none, 2)] = .ok st' ∧ st'.merged.Nodup ∧
      (∀ p, p ∈ st'.merged ↔ Reach
        [(1, ⟨[], none, [(none, 3)]⟩), (2, ⟨[], none, [(none, 3)]⟩),
         (3, ⟨[], none, [(none, 1)]⟩)] [(none, 1), (none, 2)] p) :=
  c2_each_file_merged_once
    [(1, ⟨[], none, [(none, 3)]⟩), (2, ⟨[], none, [(none, 3)]⟩),
     (3, ⟨[], none, [(none, 1)]⟩)] none [] [(none, 1), (none, 2)]
    (by decide) (by decide)

/-- Claim C6: when any import-reachable file is missing, the run aborts
by raising (modelled as an `importError` result carrying a missing
path); no merged output is produced. -/
theorem c6_missing_import_aborts (fs : List (Nat × SchemaFile))
    (rootNs : Option String) (reg0 : List (String × String))
    (rootImps : List (Option String × Nat)) (p : Nat)
    (hreach : Reach fs rootImps p) (hmissing : fs.lookup p = none) :
    ∃ q, fs.lookup q = none ∧
      handleImports fs rootNs (fs.length + 1) ⟨[], reg0, []⟩ rootImps =
        .error (.importError q) := by
  have hfuel : countNotImported fs ([] : List Nat) < fs.length + 1 := by
    have := countNotImported_le_length fs
    omega
  have hRC : RespectsImports fs (Reach fs rootImps) :=
    fun q file hq hfile i hi => Reach.step q file i hq hfile hi
  have hgood := handleImports_goodRun fs rootNs (Reach fs rootImps) hRC
    (fs.length + 1) ⟨[], reg0, []⟩ rootImps hfuel
    (fun i hi => Reach.root i hi)
  rcases hgood with ⟨st', new, hres, himp, hnew, htgt, dm, hm, hnd, hdm⟩ |
    ⟨q, hRq, hqnone, herr⟩
  · exfalso
    have himem : ∀ r, Reach fs rootImps r → r ∈ st'.imported := by
      intro r hr
      induction hr with
      | root i hmem => exact htgt i hmem
      | step q' file i hq' hfile hmem ih =>
        have hq'new : q' ∈ new := by
          rw [himp] at ih
          simpa using ih
        obtain ⟨-, -, file', hl', hi'⟩ := hnew q' hq'new
        rw [hfile] at hl'
        injection hl' with hfe
        subst hfe
        exact hi' i hmem
    have hpimp := himem p hreach
    have hpnew : p ∈ new := by
      rw [himp] at hpimp
      simpa using hpimp
    obtain ⟨-, -, file', hl', -⟩ := hnew p hpnew
    rw [hmissing] at hl'
    exact Option.noConfusion hl'
  · exact ⟨q, hqnone, herr⟩

/-- Concrete instance of claim C6: the root imports file 1, which
imports the missing file 2; the run aborts with an import error. -/
theorem c6_witness :
    ∃ q, ([(1, (⟨[], none, [(none, 2)]⟩ : SchemaFile))] :
        List (Nat × SchemaFile)).lookup q = none ∧
      handleImports [(1, ⟨[], none, [(none, 2)]⟩)] none 2 ⟨[], [], []⟩
        [(none, 1)] = .error (.importError q) :=
  c6_missing_import_aborts [(1, ⟨[], none, [(none, 2)]⟩)] none []
    [(none, 1)] 2
    (Reach.step 1 ⟨[], none, [(none, 2)]⟩ (none, 2)
      (Reach.root (none, 1) (by decide)) rfl (by decide))
    rfl

end XsdByExample
